import Mathlib

/-!
# Verification of the DocTags validator (`docling_core/utils/validators.py`)

This file embeds the grammar-driven DocTags validator in Lean 4:

* the terminal catalog (the `tokens` module is not part of the provided
  sources, so its token lists are modelled from the specification),
* the tokenizer `tokenize_input` (whitespace stripping, longest-match
  scanning, collapsing of unmatched runs into one `Content` placeholder),
* the pyparsing grammar of `validate_doctags` as a deep-embedded PEG
  (pyparsing's `MatchFirst` is ordered choice, `And` is sequencing without
  cross-element backtracking, `Optional`/`OneOrMore`/`delimitedList` are
  greedy, so on this grammar pyparsing recognition is exactly PEG
  recognition), interpreted by a fuel-indexed recognizer,
* the generic value validator `validate_datetime`,
* a grammar self-check (`validate_grammar`), which has no counterpart in
  the sources and is modelled from the specification.

The pyparsing parse runs over the concatenation of the emitted tokens
(`"".join(tokenize_input(...))`), which is how the Python code feeds the
recognizer; the embedding does the same.
-/

/-! ## Terminal catalog

`text_labels` is copied from the body of `validate_doctags`; the remaining
token lists belong to `docling_core.types.doc.tokens`, which is not among
the provided sources, and are modelled from the specification's Token
Catalog section (document open/close, page break, per-label open/close
pairs, numbered section headers, location tags, table structural tokens,
code-language tokens, picture-classification tokens, chemistry (smiles)
pair, list open/close pairs, list-item and caption pairs). -/

/-- The text item labels, copied from `validate_doctags` (`text_labels`). -/
def text_labels : List String :=
  ["caption", "checkbox_selected", "checkbox_unselected", "footnote",
   "page_footer", "page_header", "paragraph", "reference", "text",
   "formula", "title"]

/-- Modelled from the spec: the numbered section-header tag names
(`tokens._SECTION_HEADER_PREFIX` followed by the level). -/
def sectionHeaderLabel (i : Nat) : String := "section_header_level_" ++ toString i

/-- Modelled from the spec: the location-tag terminal set (a parameterized
family `<loc_i>`; the tests exercise indices up to 456, we model 0..499). -/
def locTagStrings : List String := (List.range 500).map fun i => "<loc_" ++ toString i ++ ">"

/-- Modelled from the spec: `TableToken.get_special_tokens()` — the OTSL
table-structural tokens (cell kinds, span markers, row separator `<nl>`). -/
def tableTokStrings : List String :=
  ["<fcel>", "<ecel>", "<lcel>", "<ucel>", "<xcel>", "<nl>", "<ched>", "<rhed>", "<srow>"]

/-- Modelled from the spec: the code-language terminal subset
(`tokens._CodeLanguageToken`), a closed list of `<_lang_>` tokens. -/
def codeLangStrings : List String := ["<_unknown_>", "<_Python_>", "<_Java_>", "<_C_>"]

/-- Modelled from the spec: the picture-classification terminal subset
(`tokens._PictureClassificationToken`). -/
def picClassStrings : List String := ["<other>", "<pie_chart>", "<bar_chart>", "<line_chart>"]

/-- `<name>` (the open tag of a document item kind). -/
def openTag (name : String) : String := "<" ++ name ++ ">"

/-- `</name>` (the close tag of a document item kind). -/
def closeTag (name : String) : String := "</" ++ name ++ ">"

/-- The document-item kinds that contribute an open/close tag pair to the
catalog: the document tag itself, the text labels, the section-header
levels, and code / picture / smiles / otsl / list / list-item kinds. -/
def pairedTagNames : List String :=
  ["doctag"] ++ text_labels ++ (List.range 6).map sectionHeaderLabel ++
  ["code", "picture", "smiles", "otsl", "ordered_list", "unordered_list", "list_item"]

/-- Modelled from the spec: `DocumentToken.get_special_tokens()` — every
terminal literal of the catalog (tag pairs, page break, location tags,
table tokens, code languages, picture classes). -/
def specialTokenStrings : List String :=
  pairedTagNames.flatMap (fun n => [openTag n, closeTag n]) ++
  ["<page_break>"] ++ locTagStrings ++ tableTokStrings ++ codeLangStrings ++ picClassStrings

/-- `content_symbol` in `validate_doctags`: the synthetic content placeholder. -/
def contentSymbol : String := "Content"

/-- The token list used by the placeholder (`"Content"` as characters). -/
def contentTok : List Char := contentSymbol.toList

/-- `terminals` in `validate_doctags`: the special tokens plus the content
placeholder (the Python code stores them in a set; the embedding keeps a
list, which is equivalent for matching because only membership and lengths
matter). -/
def terminalStrings : List String := specialTokenStrings ++ [contentSymbol]

/-- The terminals as character lists. -/
def termList : List (List Char) := terminalStrings.map String.toList

/-- Descending-length order on terminal literals (the sort key
`key=len, reverse=True`). -/
def lenGE (a b : List Char) : Prop := b.length ≤ a.length

/-- `sorted(list(terminals), key=len, reverse=True)`: the terminals in
descending length order, as used to build the alternation regex. Python's
`sorted` is a stable sort; among equal-length distinct literals at most
one can match at a given position, so the tie order is immaterial and any
stable descending-length sort is faithful. It is realized here by
bucketing on length (every terminal literal is shorter than 30
characters, proved below), longest bucket first. -/
def sortedTerminals : List (List Char) :=
  ((List.range 30).reverse).flatMap fun k => termList.filter fun t => t.length = k

/-! ## Tokenizer (`tokenize_input` and the whitespace stripping of `preprocess`) -/

/-- `token_regex.match(text, pos)`: the alternation of all terminals in
descending length order, matched at the head of `s`; the first alternative
that matches is the longest matching terminal. -/
def longestMatch (s : List Char) : Option (List Char) :=
  sortedTerminals.find? fun t => t.isPrefixOf s

/-- The `while pos < len(text) and not token_regex.match(text, pos): pos += 1`
loop: advance to the first position where some terminal matches (or the
end of the input), returning the remaining suffix from that position. -/
def skipRun : List Char → List Char
  | [] => []
  | c :: cs => if (longestMatch (c :: cs)).isSome then c :: cs else skipRun cs

/-- The characters skipped by `skipRun` (the unmatched run). -/
def runOf (s : List Char) : List Char := s.take (s.length - (skipRun s).length)

/-- `tokenize_input`, fuel-indexed: scan left to right; at a position where
a terminal matches emit the longest match and advance past it; otherwise
skip the whole unmatched run and emit one `Content` placeholder. One unit
of fuel per emitted token; `tokenize` below supplies sufficient fuel. -/
def tokenizeF : Nat → List Char → List (List Char)
  | 0, _ => []
  | _, [] => []
  | fuel + 1, c :: cs =>
    match longestMatch (c :: cs) with
    | some t => t :: tokenizeF fuel ((c :: cs).drop t.length)
    | none => contentTok :: tokenizeF fuel (skipRun cs)

/-- `tokenize_input` on an already whitespace-stripped input: every emitted
token consumes at least one character, so `s.length` units of fuel are
always sufficient (proved below). -/
def tokenize (s : List Char) : List (List Char) := tokenizeF s.length s

/-- Python's `str.split()` whitespace characters (ASCII; the embedding
models text over this character set). -/
def pyIsSpace (c : Char) : Bool :=
  c = ' ' || c = '\t' || c = '\n' || c = '\r' || c = '\x0b' || c = '\x0c'

/-- `"".join(input_dt.split())`: remove all whitespace. -/
def pyStrip (s : String) : List Char := s.toList.filter fun c => !pyIsSpace c

/-- `preprocess`: strip whitespace, tokenize, and concatenate the emitted
tokens back into one character sequence (the string handed to pyparsing). -/
def preprocess (s : String) : List Char := (tokenize (pyStrip s)).flatten

/-! ## The grammar of `validate_doctags` as a deep-embedded PEG

pyparsing's combinators, on this grammar, behave exactly like a PEG:
`MatchFirst` is ordered choice, `And` sequences without backtracking into
an already-committed element, `Optional` matches its body or the empty
string, `OneOrMore` / `delimitedList` repeat greedily. `Group` and
`Suppress` only shape the parse-result structure, never recognition, so
they are dropped. The recognizer works directly on the concatenated token
string, exactly as `start.parseString(processed_input, parseAll=True)`
does (the preprocessed string contains no whitespace, so pyparsing's
whitespace skipping is a no-op). -/

/-- The non-terminals (`Forward` declarations) of `validate_doctags`. -/
inductive NT where
  | start | body | docitem | textitem | textbody | loctag
  | tableitem | tablebody | row | cell | page | caption
  | pictureitem | picclass | smiles | codelang | codebody
  | orderedlist | unorderedlist | listitem | listitembody
  deriving DecidableEq, Repr

/-- Parsing expressions: literals, `MatchFirst` over a list of plain
literals (`litAny`: the first literal in list order that matches wins —
exactly pyparsing's ordered choice over `Literal`s), sequencing, ordered
choice, option, greedy repetition (one-or-more and zero-or-more),
non-terminal reference, and the empty ordered choice `never` (which always
fails). -/
inductive PExpr where
  | lit (t : List Char)
  | litAny (ts : List (List Char))
  | seq (a b : PExpr)
  | alt (a b : PExpr)
  | opt (a : PExpr)
  | oneOrMore (a : PExpr)
  | many (a : PExpr)
  | nt (n : NT)
  | never
  deriving DecidableEq, Repr

/-- `Literal(s)`. -/
def litS (s : String) : PExpr := .lit s.toList

/-- `MatchFirst(es)`: ordered choice over a list, first match wins. -/
def altOf : List PExpr → PExpr
  | [] => .never
  | e :: es => es.foldl PExpr.alt e

/-- `And(es)` (pyparsing `+`): sequence over a list. -/
def seqOf : List PExpr → PExpr
  | [] => .opt .never
  | [e] => e
  | e :: es => .seq e (seqOf es)

/-- `loctag + loctag + loctag + loctag`. -/
def locs4 : PExpr := seqOf [.nt .loctag, .nt .loctag, .nt .loctag, .nt .loctag]

/-- The text-item alternatives (`text_label_items` in the source): one
open/body/close triple per text label, per section-header level 0..5, and
the code item with its `codebody`. -/
def textLabelItems : List PExpr :=
  (text_labels.map fun lbl =>
    seqOf [litS (openTag lbl), .nt .textbody, litS (closeTag lbl)]) ++
  ((List.range 6).map fun i =>
    seqOf [litS (openTag (sectionHeaderLabel i)), .nt .textbody,
           litS (closeTag (sectionHeaderLabel i))]) ++
  [seqOf [litS (openTag "code"), .nt .codebody, litS (closeTag "code")]]

/-- The cell-kind tokens: every table token except the row separator
(`tok != TableToken.OTSL_NL.value`). -/
def cellTagStrings : List String := tableTokStrings.filter (· ≠ "<nl>")

/-- The productions, transcribed one-for-one from the `<<=` assignments of
`validate_doctags` (lines 177-276 of `validators.py`). -/
def rules : NT → PExpr
  | .start => seqOf [litS "<doctag>", .nt .body, litS "</doctag>"]
  | .page => .oneOrMore (.nt .docitem)
  | .body => .seq (.nt .page) (.many (.seq (litS "<page_break>") (.nt .page)))
  | .docitem => altOf [.nt .textitem, .nt .tableitem, .nt .pictureitem,
                       .nt .orderedlist, .nt .unorderedlist]
  | .textitem => altOf textLabelItems
  | .textbody => .seq (.opt locs4) (.opt (litS contentSymbol))
  | .codebody => .seq (.opt locs4) (.opt (.seq (.nt .codelang) (litS contentSymbol)))
  | .codelang => .litAny (codeLangStrings.map String.toList)
  | .loctag => .litAny (locTagStrings.map String.toList)
  | .tableitem => seqOf [litS "<otsl>", .opt locs4, .opt (.nt .tablebody),
                         .opt (.seq (litS "<nl>") (.nt .caption)), litS "</otsl>"]
  | .caption => seqOf [litS "<caption>", .opt locs4, .opt (litS contentSymbol),
                       litS "</caption>"]
  | .tablebody => .seq (.nt .row) (.opt (.seq (litS "<nl>") (.nt .tablebody)))
  | .row => .oneOrMore (.nt .cell)
  | .cell => altOf (cellTagStrings.map fun tok => .seq (litS tok) (.opt (litS contentSymbol)))
  | .pictureitem => seqOf [litS "<picture>", .opt locs4, .opt (.nt .picclass),
                           .opt (.nt .smiles), .opt (.nt .caption), litS "</picture>"]
  | .picclass => .litAny (picClassStrings.map String.toList)
  | .smiles => seqOf [litS "<smiles>", litS contentSymbol, litS "</smiles>"]
  | .orderedlist => seqOf [litS "<ordered_list>", .oneOrMore (.nt .listitem),
                           litS "</ordered_list>"]
  | .unorderedlist => seqOf [litS "<unordered_list>", .oneOrMore (.nt .listitem),
                             litS "</unordered_list>"]
  | .listitem => seqOf [litS "<list_item>", .nt .listitembody, litS "</list_item>"]
  | .listitembody => altOf [.nt .orderedlist, .nt .unorderedlist, .nt .textbody]

/-- Recognition outcome: success with the remaining suffix, failure, or
out of fuel. -/
inductive Res where
  | ok (rest : List Char)
  | fail
  | out
  deriving DecidableEq, Repr

/-- The PEG recognizer, fuel-indexed (one unit per expression node visited).
On `oneOrMore`/`many`, a repetition step that consumes nothing stops the
loop; every repeated element of this grammar consumes input on success
(each alternative starts with a tag literal), so this guard is never taken
and recognition agrees with pyparsing's greedy repetition. -/
def parseF : Nat → PExpr → List Char → Res
  | 0, _, _ => .out
  | fuel + 1, e, l =>
    match e with
    | .never => .fail
    | .lit t => if t.isPrefixOf l then .ok (l.drop t.length) else .fail
    | .litAny ts =>
      match ts.find? (fun t => t.isPrefixOf l) with
      | some t => .ok (l.drop t.length)
      | none => .fail
    | .seq a b =>
      match parseF fuel a l with
      | .ok r => parseF fuel b r
      | .fail => .fail
      | .out => .out
    | .alt a b =>
      match parseF fuel a l with
      | .ok r => .ok r
      | .fail => parseF fuel b l
      | .out => .out
    | .opt a =>
      match parseF fuel a l with
      | .ok r => .ok r
      | .fail => .ok l
      | .out => .out
    | .oneOrMore a =>
      match parseF fuel a l with
      | .ok r =>
        if r.length < l.length then
          match parseF fuel (.oneOrMore a) r with
          | .ok r2 => .ok r2
          | .fail => .ok r
          | .out => .out
        else .ok r
      | .fail => .fail
      | .out => .out
    | .many a =>
      match parseF fuel a l with
      | .ok r =>
        if r.length < l.length then
          match parseF fuel (.many a) r with
          | .ok r2 => .ok r2
          | .fail => .ok r
          | .out => .out
        else .ok r
      | .fail => .ok l
      | .out => .out
    | .nt n => parseF fuel (rules n) l

/-- A rank on non-terminals that strictly bounds the rank of the rule body
for every non-terminal whose expansion can reach another non-terminal
without first consuming input; the four recursive non-terminals
(`orderedlist`, `unorderedlist`, `listitem`, `tablebody`) always consume a
tag literal before re-entering the cycle and are handled separately in the
fuel-sufficiency proof. -/
def ruleRank : NT → Nat
  | .loctag => 510 | .codelang => 10 | .picclass => 10 | .cell => 20
  | .smiles => 10 | .row => 30 | .textbody => 520 | .codebody => 520
  | .caption => 520 | .tablebody => 600 | .tableitem => 650
  | .pictureitem => 650 | .textitem => 650 | .orderedlist => 700
  | .unorderedlist => 700 | .listitem => 700 | .listitembody => 710
  | .docitem => 710 | .page => 720 | .body => 730 | .start => 740

/-- Rank of a parsing expression: strictly larger than every immediate
subexpression, with non-terminal references weighted by `ruleRank`. -/
def rankE : PExpr → Nat
  | .lit _ => 0
  | .litAny _ => 0
  | .never => 0
  | .seq a b => max (rankE a) (rankE b) + 1
  | .alt a b => max (rankE a) (rankE b) + 1
  | .opt a => rankE a + 1
  | .oneOrMore a => rankE a + 1
  | .many a => rankE a + 1
  | .nt n => ruleRank n

/-- Fuel that is always sufficient for `parseF` on an input of length `n`
(proved below): a generous linear bound. -/
def fb (n : Nat) (e : PExpr) : Nat := (n + 1) * 2000 + rankE e

/-- `validate_doctags`: preprocess the input (strip whitespace, tokenize,
re-concatenate) and recognize it with the `start` non-terminal,
`parseAll=True`: success exactly when the whole string is consumed; any
failure (including leftover input) is caught by `is_valid` and becomes
`False`. -/
def validate_doctags (s : String) : Bool :=
  match parseF (fb (preprocess s).length (.nt .start)) (.nt .start) (preprocess s) with
  | .ok r => r.isEmpty
  | _ => false

/-! ## Basic facts about the terminal catalog and the longest-match scan -/

set_option maxRecDepth 1000000

/-- No terminal literal is empty. -/
theorem termList_ne_nil : ∀ t ∈ termList, t ≠ [] := by decide

/-- Every terminal literal is shorter than 30 characters. -/
theorem termList_len_lt : ∀ t ∈ termList, t.length < 30 := by decide

/-- Membership transfers between the terminal list and its sorted copy. -/
theorem mem_sortedTerminals_iff {t : List Char} : t ∈ sortedTerminals ↔ t ∈ termList := by
  constructor
  · intro h
    obtain ⟨k, _, ht⟩ := List.mem_flatMap.mp h
    exact (List.mem_filter.mp ht).1
  · intro h
    refine List.mem_flatMap.mpr ⟨t.length, ?_, List.mem_filter.mpr ⟨h, by simp⟩⟩
    rw [List.mem_reverse, List.mem_range]
    exact termList_len_lt t h

/-- A list all of whose pairs of members are related is pairwise related. -/
theorem pairwise_of_mem {α : Type} {R : α → α → Prop} :
    ∀ l : List α, (∀ x ∈ l, ∀ y ∈ l, R x y) → l.Pairwise R := by
  intro l
  induction l with
  | nil => intro _; exact List.Pairwise.nil
  | cons a l ih =>
    intro h
    refine List.pairwise_cons.mpr ⟨fun y hy => h a (by simp) y (by simp [hy]), ih ?_⟩
    intro x hx y hy
    exact h x (by simp [hx]) y (by simp [hy])

/-- Bucketing by strictly descending lengths yields a descending list. -/
theorem pairwise_buckets : ∀ ks : List Nat, List.Pairwise (· > ·) ks →
    List.Pairwise lenGE (ks.flatMap fun k => termList.filter fun t => t.length = k) := by
  intro ks
  induction ks with
  | nil => intro _; exact List.Pairwise.nil
  | cons k ks ih =>
    intro hp
    rcases List.pairwise_cons.mp hp with ⟨hk, hks⟩
    rw [List.flatMap_cons]
    refine List.pairwise_append.mpr ⟨?_, ih hks, ?_⟩
    · refine pairwise_of_mem _ ?_
      intro x hx y hy
      have h1 := (List.mem_filter.mp hx).2
      have h2 := (List.mem_filter.mp hy).2
      simp only [decide_eq_true_eq] at h1 h2
      rw [lenGE, h1, h2]
    · intro x hx y hy
      obtain ⟨k', hk', hy'⟩ := List.mem_flatMap.mp hy
      have h1 := (List.mem_filter.mp hx).2
      have h2 := (List.mem_filter.mp hy').2
      simp only [decide_eq_true_eq] at h1 h2
      rw [lenGE, h1, h2]
      exact le_of_lt (hk k' hk')

/-- The sorted terminal list is pairwise descending in length. -/
theorem sortedTerminals_sorted : List.Pairwise lenGE sortedTerminals :=
  pairwise_buckets _ (List.pairwise_reverse.mpr (List.pairwise_lt_range 30))

/-- `find?` returns the first element satisfying the predicate: any other
element of the list satisfying it is the result itself or comes later. -/
theorem find?_first {p : List Char → Bool} :
    ∀ {l : List (List Char)} {t : List Char}, List.Pairwise lenGE l →
      l.find? p = some t → ∀ x ∈ l, p x → lenGE t x ∨ t = x := by
  intro l
  induction l with
  | nil => intro t _ hf; simp at hf
  | cons y ys ih =>
    intro t hs hf x hx hpx
    rcases List.pairwise_cons.mp hs with ⟨hy, hys⟩
    by_cases hpy : p y = true
    · rw [List.find?_cons_of_pos _ hpy] at hf
      cases hf
      rcases List.mem_cons.mp hx with rfl | hx
      · right; rfl
      · left; exact hy x hx
    · rw [List.find?_cons_of_neg _ hpy] at hf
      rcases List.mem_cons.mp hx with rfl | hx
      · exact absurd hpx hpy
      · exact ih hys hf x hx hpx

/-- A successful `longestMatch` yields a terminal that is a prefix of the
input. -/
theorem longestMatch_spec {s t : List Char} (h : longestMatch s = some t) :
    t ∈ termList ∧ t.isPrefixOf s = true := by
  rw [longestMatch] at h
  have h2 := @List.find?_some (List Char) (fun t => t.isPrefixOf s) t sortedTerminals h
  exact ⟨mem_sortedTerminals_iff.mp (List.mem_of_find?_eq_some h), h2⟩

/-- A successful `longestMatch` is at least as long as every terminal
matching at the same position. -/
theorem longestMatch_longest {s t : List Char} (h : longestMatch s = some t) :
    ∀ x ∈ termList, x.isPrefixOf s = true → x.length ≤ t.length := by
  intro x hx hpx
  have hx' : x ∈ sortedTerminals := mem_sortedTerminals_iff.mpr hx
  rcases find?_first sortedTerminals_sorted h x hx' hpx with hle | rfl
  · exact hle
  · exact le_rfl

/-- If some terminal matches at a position, `longestMatch` succeeds there. -/
theorem longestMatch_isSome {s x : List Char} (hx : x ∈ termList)
    (hpx : x.isPrefixOf s = true) : (longestMatch s).isSome = true := by
  rcases hfind : longestMatch s with _ | t
  · have := List.find?_eq_none.mp hfind x (mem_sortedTerminals_iff.mpr hx)
    exact absurd hpx (by simpa using this)
  · rfl

/-- A matched terminal is nonempty, hence consumes input. -/
theorem longestMatch_ne_nil {s t : List Char} (h : longestMatch s = some t) : t ≠ [] :=
  termList_ne_nil t (longestMatch_spec h).1

/-! ## Facts about `skipRun` (the unmatched-run scan) -/

/-- `skipRun` returns a suffix of its input. -/
theorem skipRun_suffix : ∀ s : List Char, skipRun s <:+ s := by
  intro s
  induction s with
  | nil => exact List.suffix_refl []
  | cons c cs ih =>
    by_cases h : (longestMatch (c :: cs)).isSome = true
    · have hs : skipRun (c :: cs) = c :: cs := by rw [skipRun]; simp [h]
      rw [hs]
    · have hs : skipRun (c :: cs) = skipRun cs := by rw [skipRun]; simp [h]
      rw [hs]
      exact ih.trans (List.suffix_cons c cs)

/-- `skipRun` stops at the end of the input or at a matching position. -/
theorem skipRun_stops : ∀ s : List Char,
    skipRun s = [] ∨ (longestMatch (skipRun s)).isSome = true := by
  intro s
  induction s with
  | nil => left; rfl
  | cons c cs ih =>
    by_cases h : (longestMatch (c :: cs)).isSome = true
    · have hs : skipRun (c :: cs) = c :: cs := by rw [skipRun]; simp [h]
      right; rw [hs]; exact h
    · have hs : skipRun (c :: cs) = skipRun cs := by rw [skipRun]; simp [h]
      rw [hs]; exact ih

/-- The skipped run followed by the remaining suffix reassembles the input. -/
theorem runOf_append : ∀ s : List Char, runOf s ++ skipRun s = s := by
  intro s
  induction s with
  | nil => rfl
  | cons c cs ih =>
    by_cases h : (longestMatch (c :: cs)).isSome = true
    · have hs : skipRun (c :: cs) = c :: cs := by rw [skipRun]; simp [h]
      rw [runOf, hs]
      simp
    · have hs : skipRun (c :: cs) = skipRun cs := by rw [skipRun]; simp [h]
      rw [runOf, hs]
      have hle : (skipRun cs).length ≤ cs.length := (skipRun_suffix cs).length_le
      have hl2 : (c :: cs).length - (skipRun cs).length =
          (cs.length - (skipRun cs).length) + 1 := by
        simp only [List.length_cons]; omega
      rw [hl2, List.take_succ_cons, List.cons_append]
      rw [runOf] at ih
      rw [ih]

/-- Every position inside the skipped run (given that the scan entered the
run, i.e. the head position does not match) has no matching terminal. -/
theorem skipRun_no_match : ∀ s : List Char, longestMatch s = none →
    ∀ i, i < s.length - (skipRun s).length → longestMatch (s.drop i) = none := by
  intro s
  induction s with
  | nil => intro _ i hi; simp at hi
  | cons c cs ih =>
    intro hnone i hi
    have hskip : skipRun (c :: cs) = skipRun cs := by
      rw [skipRun]; simp [hnone]
    rw [hskip] at hi
    match i with
    | 0 => exact hnone
    | j + 1 =>
      simp only [List.drop_succ_cons]
      rcases hm : longestMatch cs with _ | t
      · exact ih hm j (by simp at hi; omega)
      · -- the head of `cs` matches, so `skipRun cs = cs` and the run is empty
        have : skipRun cs = cs := by
          cases cs with
          | nil => rfl
          | cons d ds => rw [skipRun]; simp [hm]
        rw [this] at hi
        simp only [List.length_cons] at hi
        omega

/-! ## Facts about the recognizer `parseF` -/

/-- A successful parse returns a suffix of its input. -/
theorem parseF_suffix : ∀ (f : Nat) (e : PExpr) (l r : List Char),
    parseF f e l = .ok r → r <:+ l := by
  intro f
  induction f with
  | zero => intro e l r h; exact absurd h (by rw [parseF]; simp)
  | succ f ih =>
    intro e l r h
    cases e with
    | never => exact absurd h (by rw [parseF]; simp)
    | lit t =>
      rw [parseF] at h
      split at h
      · cases h; exact List.drop_suffix _ _
      · exact absurd h (by simp)
    | litAny ts =>
      rw [parseF] at h
      split at h
      next t hfind => cases h; exact List.drop_suffix _ _
      next => exact absurd h (by simp)
    | seq a b =>
      rw [parseF] at h
      split at h
      next r1 hr1 => exact (ih b _ r h).trans (ih a _ r1 hr1)
      · exact absurd h (by simp)
      · exact absurd h (by simp)
    | alt a b =>
      rw [parseF] at h
      split at h
      next r1 hr1 => cases h; exact ih a _ r hr1
      next hr1 => exact ih b _ r h
      · exact absurd h (by simp)
    | opt a =>
      rw [parseF] at h
      split at h
      next r1 hr1 => cases h; exact ih a _ r hr1
      next hr1 => cases h; exact List.suffix_refl _
      · exact absurd h (by simp)
    | oneOrMore a =>
      rw [parseF] at h
      split at h
      next r1 hr1 =>
        split at h
        · split at h
          next r2 hr2 => cases h; exact (ih _ _ r hr2).trans (ih a _ r1 hr1)
          next => cases h; exact ih a _ r hr1
          next => exact absurd h (by simp)
        · cases h; exact ih a _ r hr1
      · exact absurd h (by simp)
      · exact absurd h (by simp)
    | many a =>
      rw [parseF] at h
      split at h
      next r1 hr1 =>
        split at h
        · split at h
          next r2 hr2 => cases h; exact (ih _ _ r hr2).trans (ih a _ r1 hr1)
          next => cases h; exact ih a _ r hr1
          next => exact absurd h (by simp)
        · cases h; exact ih a _ r hr1
      next hr1 => cases h; exact List.suffix_refl _
      · exact absurd h (by simp)
    | nt n => exact ih _ _ r (by rw [parseF] at h; exact h)

/-- A completed recognition (not out of fuel) is stable under more fuel. -/
theorem parseF_mono : ∀ (f m : Nat) (e : PExpr) (l : List Char), f ≤ m →
    parseF f e l ≠ .out → parseF m e l = parseF f e l := by
  intro f
  induction f with
  | zero => intro m e l _ h; exact absurd (by rw [parseF]) h
  | succ f ih =>
    intro m e l hm h
    obtain ⟨m', rfl⟩ : ∃ m', m = m' + 1 := ⟨m - 1, by omega⟩
    have hm' : f ≤ m' := by omega
    cases e with
    | never => rw [parseF, parseF]
    | lit t => rw [parseF, parseF]
    | litAny ts => rw [parseF, parseF]
    | seq a b =>
      rcases hsub : parseF f a l with r1 | _ | _
      · have h' : parseF f b r1 ≠ .out := by rw [parseF, hsub] at h; exact h
        rw [parseF, parseF, ih m' a l hm' (by simp [hsub]), hsub]
        exact ih m' b r1 hm' h'
      · rw [parseF, parseF, ih m' a l hm' (by simp [hsub]), hsub]
      · rw [parseF, hsub] at h; exact absurd rfl h
    | alt a b =>
      rcases hsub : parseF f a l with r1 | _ | _
      · rw [parseF, parseF, ih m' a l hm' (by simp [hsub]), hsub]
      · have h' : parseF f b l ≠ .out := by rw [parseF, hsub] at h; exact h
        rw [parseF, parseF, ih m' a l hm' (by simp [hsub]), hsub]
        exact ih m' b l hm' h'
      · rw [parseF, hsub] at h; exact absurd rfl h
    | opt a =>
      rcases hsub : parseF f a l with r1 | _ | _
      · rw [parseF, parseF, ih m' a l hm' (by simp [hsub]), hsub]
      · rw [parseF, parseF, ih m' a l hm' (by simp [hsub]), hsub]
      · rw [parseF, hsub] at h; exact absurd rfl h
    | oneOrMore a =>
      rcases hsub : parseF f a l with r1 | _ | _
      · by_cases hlt : r1.length < l.length
        · rcases hsub2 : parseF f (.oneOrMore a) r1 with r2 | _ | _
          · rw [parseF, parseF, ih m' a l hm' (by simp [hsub]), hsub]
            simp only [if_pos hlt]
            rw [ih m' (.oneOrMore a) r1 hm' (by simp [hsub2]), hsub2]
          · rw [parseF, parseF, ih m' a l hm' (by simp [hsub]), hsub]
            simp only [if_pos hlt]
            rw [ih m' (.oneOrMore a) r1 hm' (by simp [hsub2]), hsub2]
          · rw [parseF, hsub] at h
            simp only [if_pos hlt] at h
            rw [hsub2] at h
            exact absurd rfl h
        · rw [parseF, parseF, ih m' a l hm' (by simp [hsub]), hsub]
          simp only [if_neg hlt]
      · rw [parseF, parseF, ih m' a l hm' (by simp [hsub]), hsub]
      · rw [parseF, hsub] at h; exact absurd rfl h
    | many a =>
      rcases hsub : parseF f a l with r1 | _ | _
      · by_cases hlt : r1.length < l.length
        · rcases hsub2 : parseF f (.many a) r1 with r2 | _ | _
          · rw [parseF, parseF, ih m' a l hm' (by simp [hsub]), hsub]
            simp only [if_pos hlt]
            rw [ih m' (.many a) r1 hm' (by simp [hsub2]), hsub2]
          · rw [parseF, parseF, ih m' a l hm' (by simp [hsub]), hsub]
            simp only [if_pos hlt]
            rw [ih m' (.many a) r1 hm' (by simp [hsub2]), hsub2]
          · rw [parseF, hsub] at h
            simp only [if_pos hlt] at h
            rw [hsub2] at h
            exact absurd rfl h
        · rw [parseF, parseF, ih m' a l hm' (by simp [hsub]), hsub]
          simp only [if_neg hlt]
      · rw [parseF, parseF, ih m' a l hm' (by simp [hsub]), hsub]
      · rw [parseF, hsub] at h; exact absurd rfl h
    | nt n =>
      have h' : parseF f (rules n) l ≠ .out := by rw [parseF] at h; exact h
      rw [parseF, parseF]
      exact ih m' (rules n) l hm' h'

/-! ## Single-step unfolding lemmas for `parseF` -/

theorem parseF_nt (f : Nat) (n : NT) (l : List Char) :
    parseF (f + 1) (.nt n) l = parseF f (rules n) l := by rw [parseF]

theorem parseF_lit_pos {t l : List Char} (f : Nat) (hp : t.isPrefixOf l = true) :
    parseF (f + 1) (.lit t) l = .ok (l.drop t.length) := by rw [parseF, if_pos hp]

theorem parseF_lit_neg {t l : List Char} (f : Nat) (hp : ¬ t.isPrefixOf l = true) :
    parseF (f + 1) (.lit t) l = .fail := by rw [parseF, if_neg hp]

theorem parseF_seq_ok {f : Nat} {a b : PExpr} {l r : List Char}
    (h : parseF f a l = .ok r) : parseF (f + 1) (.seq a b) l = parseF f b r := by
  rw [parseF, h]

theorem parseF_seq_fail {f : Nat} {a : PExpr} {l : List Char} (b : PExpr)
    (h : parseF f a l = .fail) : parseF (f + 1) (.seq a b) l = .fail := by
  rw [parseF, h]

theorem parseF_alt_ok {f : Nat} {a : PExpr} {l r : List Char} (b : PExpr)
    (h : parseF f a l = .ok r) : parseF (f + 1) (.alt a b) l = .ok r := by
  rw [parseF, h]

theorem parseF_alt_fail {f : Nat} {a b : PExpr} {l : List Char}
    (h : parseF f a l = .fail) : parseF (f + 1) (.alt a b) l = parseF f b l := by
  rw [parseF, h]

theorem parseF_opt_ok {f : Nat} {a : PExpr} {l r : List Char}
    (h : parseF f a l = .ok r) : parseF (f + 1) (.opt a) l = .ok r := by
  rw [parseF, h]

theorem parseF_opt_fail {f : Nat} {a : PExpr} {l : List Char}
    (h : parseF f a l = .fail) : parseF (f + 1) (.opt a) l = .ok l := by
  rw [parseF, h]

theorem parseF_oneOrMore_fail {f : Nat} {a : PExpr} {l : List Char}
    (h : parseF f a l = .fail) : parseF (f + 1) (.oneOrMore a) l = .fail := by
  rw [parseF, h]

theorem parseF_oneOrMore_stop {f : Nat} {a : PExpr} {l r : List Char}
    (h : parseF f a l = .ok r) (hge : ¬ r.length < l.length) :
    parseF (f + 1) (.oneOrMore a) l = .ok r := by
  rw [parseF, h]; simp only [if_neg hge]

theorem parseF_oneOrMore_step {f : Nat} {a : PExpr} {l r r2 : List Char}
    (h : parseF f a l = .ok r) (hlt : r.length < l.length)
    (h2 : parseF f (.oneOrMore a) r = .ok r2) :
    parseF (f + 1) (.oneOrMore a) l = .ok r2 := by
  rw [parseF, h]; simp only [if_pos hlt, h2]

theorem parseF_oneOrMore_last {f : Nat} {a : PExpr} {l r : List Char}
    (h : parseF f a l = .ok r) (hlt : r.length < l.length)
    (h2 : parseF f (.oneOrMore a) r = .fail) :
    parseF (f + 1) (.oneOrMore a) l = .ok r := by
  rw [parseF, h]; simp only [if_pos hlt, h2]

theorem parseF_many_fail {f : Nat} {a : PExpr} {l : List Char}
    (h : parseF f a l = .fail) : parseF (f + 1) (.many a) l = .ok l := by
  rw [parseF, h]

theorem parseF_many_stop {f : Nat} {a : PExpr} {l r : List Char}
    (h : parseF f a l = .ok r) (hge : ¬ r.length < l.length) :
    parseF (f + 1) (.many a) l = .ok r := by
  rw [parseF, h]; simp only [if_neg hge]

theorem parseF_many_step {f : Nat} {a : PExpr} {l r r2 : List Char}
    (h : parseF f a l = .ok r) (hlt : r.length < l.length)
    (h2 : parseF f (.many a) r = .ok r2) :
    parseF (f + 1) (.many a) l = .ok r2 := by
  rw [parseF, h]; simp only [if_pos hlt, h2]

theorem parseF_many_last {f : Nat} {a : PExpr} {l r : List Char}
    (h : parseF f a l = .ok r) (hlt : r.length < l.length)
    (h2 : parseF f (.many a) r = .fail) :
    parseF (f + 1) (.many a) l = .ok r := by
  rw [parseF, h]; simp only [if_pos hlt, h2]

/-! ## Rank and fuel-bound arithmetic -/

theorem rankE_seq_left (a b : PExpr) : rankE a < rankE (.seq a b) :=
  Nat.lt_succ_of_le (le_max_left _ _)

theorem rankE_seq_right (a b : PExpr) : rankE b < rankE (.seq a b) :=
  Nat.lt_succ_of_le (le_max_right _ _)

theorem rankE_alt_left (a b : PExpr) : rankE a < rankE (.alt a b) :=
  Nat.lt_succ_of_le (le_max_left _ _)

theorem rankE_alt_right (a b : PExpr) : rankE b < rankE (.alt a b) :=
  Nat.lt_succ_of_le (le_max_right _ _)

theorem rankE_opt (a : PExpr) : rankE a < rankE (.opt a) := Nat.lt_succ_self _

theorem rankE_oneOrMore (a : PExpr) : rankE a < rankE (.oneOrMore a) := Nat.lt_succ_self _

theorem rankE_many (a : PExpr) : rankE a < rankE (.many a) := Nat.lt_succ_self _

/-- Same input, strictly smaller rank: one unit of fuel to spare. -/
theorem fb_step_rank {n : Nat} {e e' : PExpr} (h : rankE e' < rankE e)
    {f : Nat} (hf : fb n e ≤ f + 1) : fb n e' ≤ f := by
  unfold fb at *; omega

/-- Strictly shorter input: the per-character fuel budget absorbs any rank
increase up to 1000 (all ranks in this grammar are below that). -/
theorem fb_step_len {n n' : Nat} {e e' : PExpr} (hn : n' < n)
    (hr : rankE e' ≤ rankE e + 1000) {f : Nat} (hf : fb n e ≤ f + 1) :
    fb n' e' ≤ f := by
  unfold fb at *; omega

/-! ## Fuel sufficiency: recognition always reaches a decided result -/

/-- Recognition of `e` on `l` is decided: some non-out result is produced
by every fuel of at least `fb l.length e`. -/
def Decided (e : PExpr) (l : List Char) : Prop :=
  ∃ r, r ≠ Res.out ∧ ∀ f, fb l.length e ≤ f → parseF f e l = r

/-- A non-terminal whose rule body has smaller rank is decided as soon as
its body is. -/
theorem decided_nt_ranked {N : NT} {l : List Char}
    (hrk : rankE (rules N) < ruleRank N) (hbody : Decided (rules N) l) :
    Decided (.nt N) l := by
  obtain ⟨r, hr, hd⟩ := hbody
  refine ⟨r, hr, fun f hf => ?_⟩
  obtain ⟨f', rfl⟩ : ∃ f', f = f' + 1 := ⟨f - 1, by unfold fb at hf; omega⟩
  rw [parseF_nt]
  exact hd f' (fb_step_rank (by simpa [rankE] using hrk) hf)

/-- A non-terminal whose rule body starts with a nonempty literal is
decided as soon as the continuation is decided on every strictly shorter
input (covers the recursive list non-terminals). -/
theorem decided_nt_litseq {N : NT} {t : List Char} {e2 : PExpr} {l : List Char}
    (hrule : rules N = .seq (.lit t) e2) (ht : t ≠ [])
    (hrk : rankE e2 ≤ 1000)
    (hcont : ∀ rest : List Char, rest.length < l.length → Decided e2 rest) :
    Decided (.nt N) l := by
  by_cases hp : t.isPrefixOf l = true
  · have hpre : t <+: l := List.isPrefixOf_iff_prefix.mp hp
    have htlen : 1 ≤ t.length := by
      cases t with
      | nil => exact absurd rfl ht
      | cons _ _ => simp
    have hdlen : (l.drop t.length).length < l.length := by
      have := hpre.length_le
      simp only [List.length_drop]
      omega
    obtain ⟨r2, hr2, hd2⟩ := hcont (l.drop t.length) hdlen
    refine ⟨r2, hr2, fun f hf => ?_⟩
    obtain ⟨f', rfl⟩ : ∃ f', f = f' + 3 := ⟨f - 3, by unfold fb at hf; omega⟩
    rw [parseF_nt, hrule, parseF_seq_ok (parseF_lit_pos f' hp)]
    exact hd2 (f' + 1) (by unfold fb at hf ⊢; omega)
  · refine ⟨.fail, by simp, fun f hf => ?_⟩
    obtain ⟨f', rfl⟩ : ∃ f', f = f' + 3 := ⟨f - 3, by unfold fb at hf; omega⟩
    rw [parseF_nt, hrule, parseF_seq_fail _ (parseF_lit_neg f' hp)]

/-- Fuel sufficiency: on every input, every expression's recognition is
decided once the fuel reaches the linear bound `fb`. The induction is on
input length, with an inner induction on expression rank for the calls
that do not consume input; the recursive list/table non-terminals consume
a tag literal before re-entering their cycle, which the outer induction
absorbs. -/
theorem decidedAll : ∀ (n : Nat) (l : List Char), l.length ≤ n → ∀ (e : PExpr), Decided e l := by
  intro n
  induction n using Nat.strong_induction_on with
  | _ n IHn =>
  intro l hl
  have IHlen : ∀ l' : List Char, l'.length < l.length → ∀ e', Decided e' l' := by
    intro l' hl' e'
    exact IHn (n - 1) (by omega) l' (by omega) e'
  suffices h : ∀ (k : Nat) (e : PExpr), rankE e < k → Decided e l by
    intro e
    exact h (rankE e + 1) e (Nat.lt_succ_self _)
  intro k
  induction k using Nat.strong_induction_on with
  | _ k IHk =>
  intro e hk
  have IHe : ∀ e', rankE e' < rankE e → Decided e' l := fun e' h' => IHk (rankE e) hk e' h'
  cases e with
  | never =>
    refine ⟨.fail, by simp, fun f hf => ?_⟩
    obtain ⟨f', rfl⟩ : ∃ f', f = f' + 1 := ⟨f - 1, by unfold fb at hf; omega⟩
    rw [parseF]
  | lit t =>
    by_cases hp : t.isPrefixOf l = true
    · refine ⟨.ok (l.drop t.length), by simp, fun f hf => ?_⟩
      obtain ⟨f', rfl⟩ : ∃ f', f = f' + 1 := ⟨f - 1, by unfold fb at hf; omega⟩
      exact parseF_lit_pos f' hp
    · refine ⟨.fail, by simp, fun f hf => ?_⟩
      obtain ⟨f', rfl⟩ : ∃ f', f = f' + 1 := ⟨f - 1, by unfold fb at hf; omega⟩
      exact parseF_lit_neg f' hp
  | litAny ts =>
    rcases hfind : ts.find? (fun t => t.isPrefixOf l) with _ | t
    · refine ⟨.fail, by simp, fun f hf => ?_⟩
      obtain ⟨f', rfl⟩ : ∃ f', f = f' + 1 := ⟨f - 1, by unfold fb at hf; omega⟩
      rw [parseF, hfind]
    · refine ⟨.ok (l.drop t.length), by simp, fun f hf => ?_⟩
      obtain ⟨f', rfl⟩ : ∃ f', f = f' + 1 := ⟨f - 1, by unfold fb at hf; omega⟩
      rw [parseF, hfind]
  | seq a b =>
    obtain ⟨ra, hra, hda⟩ := IHe a (rankE_seq_left a b)
    cases ra with
    | out => exact absurd rfl hra
    | fail =>
      refine ⟨.fail, by simp, fun f hf => ?_⟩
      obtain ⟨f', rfl⟩ : ∃ f', f = f' + 1 := ⟨f - 1, by unfold fb at hf; omega⟩
      exact parseF_seq_fail _ (hda f' (fb_step_rank (rankE_seq_left a b) hf))
    | ok rest =>
      have hsuf := parseF_suffix _ a l rest (hda _ le_rfl)
      by_cases heq : rest.length = l.length
      · have hrl : rest = l := hsuf.sublist.eq_of_length heq
        subst hrl
        obtain ⟨rb, hrb, hdb⟩ := IHe b (rankE_seq_right a b)
        refine ⟨rb, hrb, fun f hf => ?_⟩
        obtain ⟨f', rfl⟩ : ∃ f', f = f' + 1 := ⟨f - 1, by unfold fb at hf; omega⟩
        rw [parseF_seq_ok (hda f' (fb_step_rank (rankE_seq_left a b) hf))]
        exact hdb f' (fb_step_rank (rankE_seq_right a b) hf)
      · have hlt : rest.length < l.length := Nat.lt_of_le_of_ne hsuf.length_le heq
        obtain ⟨rb, hrb, hdb⟩ := IHlen rest hlt b
        refine ⟨rb, hrb, fun f hf => ?_⟩
        obtain ⟨f', rfl⟩ : ∃ f', f = f' + 1 := ⟨f - 1, by unfold fb at hf; omega⟩
        rw [parseF_seq_ok (hda f' (fb_step_rank (rankE_seq_left a b) hf))]
        refine hdb f' (fb_step_len hlt ?_ hf)
        exact le_trans (le_of_lt (rankE_seq_right a b)) (Nat.le_add_right _ _)
  | alt a b =>
    obtain ⟨ra, hra, hda⟩ := IHe a (rankE_alt_left a b)
    cases ra with
    | out => exact absurd rfl hra
    | ok rest =>
      refine ⟨.ok rest, by simp, fun f hf => ?_⟩
      obtain ⟨f', rfl⟩ : ∃ f', f = f' + 1 := ⟨f - 1, by unfold fb at hf; omega⟩
      exact parseF_alt_ok _ (hda f' (fb_step_rank (rankE_alt_left a b) hf))
    | fail =>
      obtain ⟨rb, hrb, hdb⟩ := IHe b (rankE_alt_right a b)
      refine ⟨rb, hrb, fun f hf => ?_⟩
      obtain ⟨f', rfl⟩ : ∃ f', f = f' + 1 := ⟨f - 1, by unfold fb at hf; omega⟩
      rw [parseF_alt_fail (hda f' (fb_step_rank (rankE_alt_left a b) hf))]
      exact hdb f' (fb_step_rank (rankE_alt_right a b) hf)
  | opt a =>
    obtain ⟨ra, hra, hda⟩ := IHe a (rankE_opt a)
    cases ra with
    | out => exact absurd rfl hra
    | ok rest =>
      refine ⟨.ok rest, by simp, fun f hf => ?_⟩
      obtain ⟨f', rfl⟩ : ∃ f', f = f' + 1 := ⟨f - 1, by unfold fb at hf; omega⟩
      exact parseF_opt_ok (hda f' (fb_step_rank (rankE_opt a) hf))
    | fail =>
      refine ⟨.ok l, by simp, fun f hf => ?_⟩
      obtain ⟨f', rfl⟩ : ∃ f', f = f' + 1 := ⟨f - 1, by unfold fb at hf; omega⟩
      exact parseF_opt_fail (hda f' (fb_step_rank (rankE_opt a) hf))
  | oneOrMore a =>
    obtain ⟨ra, hra, hda⟩ := IHe a (rankE_oneOrMore a)
    cases ra with
    | out => exact absurd rfl hra
    | fail =>
      refine ⟨.fail, by simp, fun f hf => ?_⟩
      obtain ⟨f', rfl⟩ : ∃ f', f = f' + 1 := ⟨f - 1, by unfold fb at hf; omega⟩
      exact parseF_oneOrMore_fail (hda f' (fb_step_rank (rankE_oneOrMore a) hf))
    | ok rest =>
      have hsuf := parseF_suffix _ a l rest (hda _ le_rfl)
      by_cases heq : rest.length = l.length
      · refine ⟨.ok rest, by simp, fun f hf => ?_⟩
        obtain ⟨f', rfl⟩ : ∃ f', f = f' + 1 := ⟨f - 1, by unfold fb at hf; omega⟩
        exact parseF_oneOrMore_stop (hda f' (fb_step_rank (rankE_oneOrMore a) hf))
          (by omega)
      · have hlt : rest.length < l.length := Nat.lt_of_le_of_ne hsuf.length_le heq
        obtain ⟨r2, hr2, hd2⟩ := IHlen rest hlt (.oneOrMore a)
        cases r2 with
        | out => exact absurd rfl hr2
        | ok r2' =>
          refine ⟨.ok r2', by simp, fun f hf => ?_⟩
          obtain ⟨f', rfl⟩ : ∃ f', f = f' + 1 := ⟨f - 1, by unfold fb at hf; omega⟩
          exact parseF_oneOrMore_step (hda f' (fb_step_rank (rankE_oneOrMore a) hf)) hlt
            (hd2 f' (fb_step_len hlt (Nat.le_add_right _ _) hf))
        | fail =>
          refine ⟨.ok rest, by simp, fun f hf => ?_⟩
          obtain ⟨f', rfl⟩ : ∃ f', f = f' + 1 := ⟨f - 1, by unfold fb at hf; omega⟩
          exact parseF_oneOrMore_last (hda f' (fb_step_rank (rankE_oneOrMore a) hf)) hlt
            (hd2 f' (fb_step_len hlt (Nat.le_add_right _ _) hf))
  | many a =>
    obtain ⟨ra, hra, hda⟩ := IHe a (rankE_many a)
    cases ra with
    | out => exact absurd rfl hra
    | fail =>
      refine ⟨.ok l, by simp, fun f hf => ?_⟩
      obtain ⟨f', rfl⟩ : ∃ f', f = f' + 1 := ⟨f - 1, by unfold fb at hf; omega⟩
      exact parseF_many_fail (hda f' (fb_step_rank (rankE_many a) hf))
    | ok rest =>
      have hsuf := parseF_suffix _ a l rest (hda _ le_rfl)
      by_cases heq : rest.length = l.length
      · refine ⟨.ok rest, by simp, fun f hf => ?_⟩
        obtain ⟨f', rfl⟩ : ∃ f', f = f' + 1 := ⟨f - 1, by unfold fb at hf; omega⟩
        exact parseF_many_stop (hda f' (fb_step_rank (rankE_many a) hf)) (by omega)
      · have hlt : rest.length < l.length := Nat.lt_of_le_of_ne hsuf.length_le heq
        obtain ⟨r2, hr2, hd2⟩ := IHlen rest hlt (.many a)
        cases r2 with
        | out => exact absurd rfl hr2
        | ok r2' =>
          refine ⟨.ok r2', by simp, fun f hf => ?_⟩
          obtain ⟨f', rfl⟩ : ∃ f', f = f' + 1 := ⟨f - 1, by unfold fb at hf; omega⟩
          exact parseF_many_step (hda f' (fb_step_rank (rankE_many a) hf)) hlt
            (hd2 f' (fb_step_len hlt (Nat.le_add_right _ _) hf))
        | fail =>
          refine ⟨.ok rest, by simp, fun f hf => ?_⟩
          obtain ⟨f', rfl⟩ : ∃ f', f = f' + 1 := ⟨f - 1, by unfold fb at hf; omega⟩
          exact parseF_many_last (hda f' (fb_step_rank (rankE_many a) hf)) hlt
            (hd2 f' (fb_step_len hlt (Nat.le_add_right _ _) hf))
  | nt nn =>
    cases nn with
    | start => exact decided_nt_ranked (by decide) (IHe _ (by decide))
    | body => exact decided_nt_ranked (by decide) (IHe _ (by decide))
    | docitem => exact decided_nt_ranked (by decide) (IHe _ (by decide))
    | textitem => exact decided_nt_ranked (by decide) (IHe _ (by decide))
    | textbody => exact decided_nt_ranked (by decide) (IHe _ (by decide))
    | loctag => exact decided_nt_ranked (by decide) (IHe _ (by decide))
    | tableitem => exact decided_nt_ranked (by decide) (IHe _ (by decide))
    | row => exact decided_nt_ranked (by decide) (IHe _ (by decide))
    | cell => exact decided_nt_ranked (by decide) (IHe _ (by decide))
    | page => exact decided_nt_ranked (by decide) (IHe _ (by decide))
    | caption => exact decided_nt_ranked (by decide) (IHe _ (by decide))
    | pictureitem => exact decided_nt_ranked (by decide) (IHe _ (by decide))
    | picclass => exact decided_nt_ranked (by decide) (IHe _ (by decide))
    | smiles => exact decided_nt_ranked (by decide) (IHe _ (by decide))
    | codelang => exact decided_nt_ranked (by decide) (IHe _ (by decide))
    | codebody => exact decided_nt_ranked (by decide) (IHe _ (by decide))
    | listitembody => exact decided_nt_ranked (by decide) (IHe _ (by decide))
    | orderedlist =>
      exact decided_nt_litseq rfl (by decide) (by decide) (fun rest h => IHlen rest h _)
    | unorderedlist =>
      exact decided_nt_litseq rfl (by decide) (by decide) (fun rest h => IHlen rest h _)
    | listitem =>
      exact decided_nt_litseq rfl (by decide) (by decide) (fun rest h => IHlen rest h _)
    | tablebody =>
      obtain ⟨rr, hrr, hdr⟩ := IHe (.nt .row) (by decide)
      have hrw : rules NT.tablebody =
          .seq (.nt .row) (.opt (.seq (.lit "<nl>".toList) (.nt .tablebody))) := rfl
      cases rr with
      | out => exact absurd rfl hrr
      | fail =>
        refine ⟨.fail, by simp, fun f hf => ?_⟩
        obtain ⟨f', rfl⟩ : ∃ f', f = f' + 2 := ⟨f - 2, by unfold fb at hf; omega⟩
        rw [parseF_nt, hrw]
        exact parseF_seq_fail _ (hdr f'
          (by unfold fb at hf ⊢; simp only [rankE, ruleRank] at hf ⊢; omega))
      | ok rest =>
        have hsuf := parseF_suffix _ _ l rest (hdr _ le_rfl)
        by_cases heq : rest.length = l.length
        · have hrl : rest = l := hsuf.sublist.eq_of_length heq
          rw [hrl] at hdr
          by_cases hnl : ("<nl>".toList).isPrefixOf l = true
          · have hd4 : (l.drop ("<nl>".toList).length).length < l.length := by
              have hple := (List.isPrefixOf_iff_prefix.mp hnl).length_le
              simp only [List.length_drop]
              have h4 : ("<nl>".toList).length = 4 := by decide
              omega
            obtain ⟨r3, hr3, hd3⟩ := IHlen _ hd4 (.nt .tablebody)
            cases r3 with
            | out => exact absurd rfl hr3
            | ok r4 =>
              refine ⟨.ok r4, by simp, fun f hf => ?_⟩
              obtain ⟨f', rfl⟩ : ∃ f', f = f' + 5 := ⟨f - 5, by unfold fb at hf; omega⟩
              rw [parseF_nt, hrw,
                parseF_seq_ok (hdr (f' + 3)
                  (by unfold fb at hf ⊢; simp only [rankE, ruleRank] at hf ⊢; omega)),
                parseF_opt_ok (show parseF (f' + 2)
                    (.seq (.lit "<nl>".toList) (.nt .tablebody)) l = .ok r4 by
                  rw [parseF_seq_ok (parseF_lit_pos f' hnl)]
                  exact hd3 (f' + 1)
                    (by unfold fb at hf ⊢; simp only [rankE, ruleRank] at hf ⊢; omega))]
            | fail =>
              refine ⟨.ok l, by simp, fun f hf => ?_⟩
              obtain ⟨f', rfl⟩ : ∃ f', f = f' + 5 := ⟨f - 5, by unfold fb at hf; omega⟩
              rw [parseF_nt, hrw,
                parseF_seq_ok (hdr (f' + 3)
                  (by unfold fb at hf ⊢; simp only [rankE, ruleRank] at hf ⊢; omega)),
                parseF_opt_fail (show parseF (f' + 2)
                    (.seq (.lit "<nl>".toList) (.nt .tablebody)) l = .fail by
                  rw [parseF_seq_ok (parseF_lit_pos f' hnl)]
                  exact hd3 (f' + 1)
                    (by unfold fb at hf ⊢; simp only [rankE, ruleRank] at hf ⊢; omega))]
          · refine ⟨.ok l, by simp, fun f hf => ?_⟩
            obtain ⟨f', rfl⟩ : ∃ f', f = f' + 5 := ⟨f - 5, by unfold fb at hf; omega⟩
            rw [parseF_nt, hrw,
              parseF_seq_ok (hdr (f' + 3)
                (by unfold fb at hf ⊢; simp only [rankE, ruleRank] at hf ⊢; omega)),
              parseF_opt_fail (parseF_seq_fail _ (parseF_lit_neg f' hnl))]
        · have hlt : rest.length < l.length := Nat.lt_of_le_of_ne hsuf.length_le heq
          obtain ⟨r2, hr2, hd2⟩ := IHlen rest hlt
            (.opt (.seq (.lit "<nl>".toList) (.nt .tablebody)))
          refine ⟨r2, hr2, fun f hf => ?_⟩
          obtain ⟨f', rfl⟩ : ∃ f', f = f' + 2 := ⟨f - 2, by unfold fb at hf; omega⟩
          rw [parseF_nt, hrw,
            parseF_seq_ok (hdr f'
              (by unfold fb at hf ⊢; simp only [rankE, ruleRank] at hf ⊢; omega))]
          exact hd2 f' (by
            unfold fb at hf ⊢
            simp only [rankE, ruleRank, Nat.zero_max] at hf ⊢
            omega)

/-! ## Segmented view of the tokenizer

`tokenizeSegF` is the tokenizer instrumented to record, for each emitted
token, whether it was a matched terminal (`termS`, carrying the literal)
or a collapsed unmatched run (`skipS`, carrying the skipped characters).
Erasing the instrumentation (`segTok`) yields exactly `tokenize_input`'s
output. `GoodSegs` is the declarative characterization of a correct
segmentation: segments tile the input, every `termS` is the longest match
at its position, and every `skipS` is a nonempty maximal run of positions
at which no terminal matches. -/

/-- An emitted token, tagged with its origin. -/
inductive Seg where
  | termS (t : List Char)
  | skipS (r : List Char)
  deriving DecidableEq, Repr

/-- The token string emitted for a segment (a skipped run becomes the
content placeholder). -/
def segTok : Seg → List Char
  | .termS t => t
  | .skipS _ => contentTok

/-- The input characters covered by a segment. -/
def segChars : Seg → List Char
  | .termS t => t
  | .skipS r => r

/-- Whether a segment is a collapsed unmatched run (i.e. the emitted token
is a content placeholder). -/
def isSkipSeg : Seg → Bool
  | .termS _ => false
  | .skipS _ => true

/-- The tokenizer, instrumented with segment tags. -/
def tokenizeSegF : Nat → List Char → List Seg
  | 0, _ => []
  | _, [] => []
  | fuel + 1, c :: cs =>
    match longestMatch (c :: cs) with
    | some t => .termS t :: tokenizeSegF fuel ((c :: cs).drop t.length)
    | none => .skipS (runOf (c :: cs)) :: tokenizeSegF fuel (skipRun cs)

/-- The instrumented tokenizer with sufficient fuel. -/
def tokenizeSeg (s : List Char) : List Seg := tokenizeSegF s.length s

/-- Declarative characterization of the tokenizer's segmentation:
the segments tile the input; a `termS t` segment starts where
`longestMatch` returns `t`; a `skipS r` segment is a nonempty run such
that no terminal matches at any position inside it and the run is maximal
(the input ends after it or a terminal matches right after it). -/
inductive GoodSegs : List Char → List Seg → Prop where
  | nil : GoodSegs [] []
  | term : ∀ (t rest : List Char) (segs : List Seg),
      longestMatch (t ++ rest) = some t →
      GoodSegs rest segs →
      GoodSegs (t ++ rest) (.termS t :: segs)
  | skip : ∀ (r rest : List Char) (segs : List Seg),
      r ≠ [] →
      (∀ i, i < r.length → longestMatch (r.drop i ++ rest) = none) →
      (rest = [] ∨ (longestMatch rest).isSome = true) →
      GoodSegs rest segs →
      GoodSegs (r ++ rest) (.skipS r :: segs)

/-- Erasing the segment tags yields the tokenizer's output. -/
theorem tokenizeSegF_render : ∀ (f : Nat) (s : List Char),
    (tokenizeSegF f s).map segTok = tokenizeF f s := by
  intro f
  induction f with
  | zero => intro s; cases s <;> rfl
  | succ f ih =>
    intro s
    cases s with
    | nil => rfl
    | cons c cs =>
      cases hm : longestMatch (c :: cs) with
      | some t =>
        have h1 : tokenizeSegF (f + 1) (c :: cs) =
            .termS t :: tokenizeSegF f ((c :: cs).drop t.length) := by
          rw [tokenizeSegF, hm]
        have h2 : tokenizeF (f + 1) (c :: cs) =
            t :: tokenizeF f ((c :: cs).drop t.length) := by
          rw [tokenizeF, hm]
        rw [h1, h2]
        simp only [List.map_cons, segTok, ih]
      | none =>
        have h1 : tokenizeSegF (f + 1) (c :: cs) =
            .skipS (runOf (c :: cs)) :: tokenizeSegF f (skipRun cs) := by
          rw [tokenizeSegF, hm]
        have h2 : tokenizeF (f + 1) (c :: cs) =
            contentTok :: tokenizeF f (skipRun cs) := by
          rw [tokenizeF, hm]
        rw [h1, h2]
        simp only [List.map_cons, segTok, ih]

/-- The instrumented tokenizer produces a correct segmentation. -/
theorem tokenizeSegF_good : ∀ (n : Nat) (s : List Char), s.length ≤ n →
    GoodSegs s (tokenizeSegF n s) := by
  intro n
  induction n using Nat.strong_induction_on with
  | _ n ih =>
  intro s hs
  cases s with
  | nil => cases n <;> exact GoodSegs.nil
  | cons c cs =>
    obtain ⟨n', rfl⟩ : ∃ n', n = n' + 1 := ⟨n - 1, by
      simp only [List.length_cons] at hs; omega⟩
    simp only [List.length_cons] at hs
    cases hm : longestMatch (c :: cs) with
    | some t =>
      have hunfold : tokenizeSegF (n' + 1) (c :: cs) =
          .termS t :: tokenizeSegF n' ((c :: cs).drop t.length) := by
        rw [tokenizeSegF, hm]
      have hspec := longestMatch_spec hm
      have hpre : t <+: (c :: cs) := List.isPrefixOf_iff_prefix.mp hspec.2
      have htne : t ≠ [] := termList_ne_nil t hspec.1
      have htpos : 1 ≤ t.length := by
        cases t with
        | nil => exact absurd rfl htne
        | cons _ _ => simp
      obtain ⟨rest, hrest⟩ := hpre
      have hdrop : (c :: cs).drop t.length = rest := by
        rw [← hrest, List.drop_left]
      have hlen : t.length + rest.length = cs.length + 1 := by
        have := congrArg List.length hrest
        simpa using this
      rw [hunfold, hdrop, ← hrest]
      rw [← hrest] at hm
      exact GoodSegs.term t rest _ hm (ih n' (by omega) rest (by omega))
    | none =>
      have hunfold : tokenizeSegF (n' + 1) (c :: cs) =
          .skipS (runOf (c :: cs)) :: tokenizeSegF n' (skipRun cs) := by
        rw [tokenizeSegF, hm]
      have hskip : skipRun (c :: cs) = skipRun cs := by
        rw [skipRun]; simp [hm]
      have happ := runOf_append (c :: cs)
      rw [hskip] at happ
      have hsl : (skipRun cs).length ≤ cs.length := (skipRun_suffix cs).length_le
      have hrunlen : (runOf (c :: cs)).length =
          (c :: cs).length - (skipRun cs).length := by
        rw [runOf, hskip, List.length_take]
        simp only [List.length_cons]
        omega
      have hrun1 : 1 ≤ (runOf (c :: cs)).length := by
        rw [hrunlen]; simp only [List.length_cons]; omega
      have hnm : ∀ i, i < (runOf (c :: cs)).length →
          longestMatch ((runOf (c :: cs)).drop i ++ skipRun cs) = none := by
        intro i hi
        have hdi : ((runOf (c :: cs)).drop i) ++ skipRun cs = (c :: cs).drop i := by
          rw [← List.drop_append_of_le_length (by omega), happ]
        rw [hdi]
        exact skipRun_no_match (c :: cs) hm i (by rw [hskip]; omega)
      have hrec : GoodSegs (skipRun cs) (tokenizeSegF n' (skipRun cs)) :=
        ih n' (by omega) (skipRun cs) (by omega)
      have hgood := GoodSegs.skip (runOf (c :: cs)) (skipRun cs) _
        (by intro hcon; rw [hcon] at hrun1; simp at hrun1)
        hnm (skipRun_stops cs) hrec
      rw [happ] at hgood
      rw [hunfold]
      exact hgood

/-- The segmentation tiles the input. -/
theorem goodSegs_tile : ∀ {u : List Char} {segs : List Seg},
    GoodSegs u segs → (segs.map segChars).flatten = u := by
  intro u segs hg
  induction hg with
  | nil => rfl
  | term t rest segs0 hm hg ih => simp only [List.map_cons, List.flatten_cons, segChars, ih]
  | skip r rest segs0 hne hnm hstop hg ih =>
    simp only [List.map_cons, List.flatten_cons, segChars, ih]

/-- In a correct segmentation, every terminal segment is the longest match
at its own position (the position's suffix being the concatenation of the
remaining segments). -/
theorem goodSegs_term_match : ∀ {u : List Char} {segs : List Seg},
    GoodSegs u segs → ∀ (s1 : List Seg) (t : List Char) (s2 : List Seg),
    segs = s1 ++ Seg.termS t :: s2 →
    longestMatch (((Seg.termS t :: s2).map segChars).flatten) = some t := by
  intro u segs hg
  induction hg with
  | nil =>
    intro s1 t s2 heq
    exact absurd heq (by simp)
  | term t0 rest segs0 hm hg ih =>
    intro s1 t s2 heq
    cases s1 with
    | nil =>
      simp only [List.nil_append] at heq
      injection heq with h1 h2
      injection h1 with h1
      rw [← h1, ← h2]
      simp only [List.map_cons, List.flatten_cons, segChars, goodSegs_tile hg]
      exact hm
    | cons a s1' =>
      simp only [List.cons_append] at heq
      injection heq with h1 h2
      exact ih s1' t s2 h2
  | skip r rest segs0 hne hnm hstop hg ih =>
    intro s1 t s2 heq
    cases s1 with
    | nil =>
      simp only [List.nil_append] at heq
      injection heq with h1 h2
      exact Seg.noConfusion h1
    | cons a s1' =>
      simp only [List.cons_append] at heq
      injection heq with h1 h2
      exact ih s1' t s2 h2

/-- Every token the tokenizer emits is a terminal or the content
placeholder. -/
theorem tokenizeF_mem : ∀ (f : Nat) (s t : List Char), t ∈ tokenizeF f s →
    t ∈ termList ∨ t = contentTok := by
  intro f
  induction f with
  | zero => intro s t h; rw [tokenizeF] at h; exact absurd h (by simp)
  | succ f ih =>
    intro s t h
    cases s with
    | nil => exact absurd h (by rw [show tokenizeF (f + 1) ([] : List Char) = [] from rfl]; simp)
    | cons c cs =>
      rw [tokenizeF] at h
      cases hm : longestMatch (c :: cs) with
      | some t0 =>
        rw [hm] at h
        rcases List.mem_cons.mp h with rfl | h2
        · exact Or.inl (longestMatch_spec hm).1
        · exact ih _ t h2
      | none =>
        rw [hm] at h
        rcases List.mem_cons.mp h with rfl | h2
        · exact Or.inr rfl
        · exact ih _ t h2

/-! ## Grammar model and self-check

Modelled from the spec: the repository sources contain no grammar
self-check (pyparsing builds the grammar directly), so the Grammar Model
(a table of non-terminal → alternatives over a symbol sum type) and
`validate_grammar` are transcribed from the specification's Grammar
Validator contract: the start symbol must be a declared non-terminal, and
every symbol of every production's right-hand side must be a declared
non-terminal, a declared terminal, or the content placeholder. -/

/-- A grammar symbol: a terminal literal, a non-terminal name, or the
content placeholder. -/
inductive GSym where
  | t (s : String)
  | n (name : String)
  | c
  deriving DecidableEq, Repr

/-- A grammar as data: declared non-terminals and terminals, the start
symbol, and one entry per production alternative. -/
structure Grammar where
  nonterminals : List String
  terminals : List String
  startSym : String
  prods : List (String × List GSym)

instance {α β : Type} [DecidableEq α] [DecidableEq β] : DecidableEq (Except α β) :=
  fun a b =>
    match a, b with
    | .ok x, .ok y =>
      if h : x = y then isTrue (by rw [h]) else isFalse (fun hc => h (Except.ok.inj hc))
    | .error x, .error y =>
      if h : x = y then isTrue (by rw [h]) else isFalse (fun hc => h (Except.error.inj hc))
    | .ok _, .error _ => isFalse (fun hc => Except.noConfusion hc)
    | .error _, .ok _ => isFalse (fun hc => Except.noConfusion hc)

/-- Modelled from the spec: whether a right-hand-side symbol is declared
(a declared non-terminal, a declared terminal, or the content
placeholder). -/
def symbolDeclared (g : Grammar) : GSym → Bool
  | .t s => g.terminals.contains s
  | .n m => g.nonterminals.contains m
  | .c => true

/-- Modelled from the spec: `validate_grammar(grammar) ->
Result<(), GrammarError>`, the one-time definitional self-check. -/
def validate_grammar (g : Grammar) : Except String Unit :=
  if g.startSym ∈ g.nonterminals then
    if g.prods.all (fun p => p.2.all (symbolDeclared g)) then Except.ok ()
    else Except.error "unknown symbol in a production"
  else Except.error "undeclared start symbol"

/-- One slot of optional content in a production (either absent or the
given symbol sequence). -/
def optAlt (xs : List GSym) : List (List GSym) := [[], xs]

/-- Cartesian expansion of a sequence of slots into flat alternatives. -/
def seqAlts : List (List (List GSym)) → List (List GSym)
  | [] => [[]]
  | choice :: rest => choice.flatMap fun pre => (seqAlts rest).map (pre ++ ·)

/-- Four positional location tags. -/
def loc4 : List GSym := [.n "Loc", .n "Loc", .n "Loc", .n "Loc"]

/-- The document-structure grammar of the specification (§4.4) as data;
`Page`, `Row` and the list bodies use an auxiliary right-recursive
non-terminal for `+`/`*` repetition. -/
def docTagsGrammar : Grammar where
  nonterminals :=
    ["Document", "Body", "Page", "DocItem", "TextItem", "TextBody",
     "CodeBody", "CodeLang", "Loc", "TableItem", "TableBody", "Row",
     "Cell", "PictureItem", "PicClass", "Smiles", "Caption",
     "OrderedList", "UnorderedList", "ListItems", "ListItem",
     "ListItemBody"]
  terminals := terminalStrings
  startSym := "Document"
  prods :=
    [("Document", [.t "<doctag>", .n "Body", .t "</doctag>"]),
     ("Body", [.n "Page"]),
     ("Body", [.n "Page", .t "<page_break>", .n "Body"]),
     ("Page", [.n "DocItem"]),
     ("Page", [.n "DocItem", .n "Page"]),
     ("DocItem", [.n "TextItem"]),
     ("DocItem", [.n "TableItem"]),
     ("DocItem", [.n "PictureItem"]),
     ("DocItem", [.n "OrderedList"]),
     ("DocItem", [.n "UnorderedList"])] ++
    (text_labels.map fun lbl =>
      ("TextItem", [GSym.t (openTag lbl), .n "TextBody", .t (closeTag lbl)])) ++
    ((List.range 6).map fun i =>
      ("TextItem", [GSym.t (openTag (sectionHeaderLabel i)), .n "TextBody",
                    .t (closeTag (sectionHeaderLabel i))])) ++
    [("TextItem", [.t "<code>", .n "CodeBody", .t "</code>"])] ++
    ((seqAlts [optAlt loc4, optAlt [.c]]).map fun rhs => ("TextBody", rhs)) ++
    ((seqAlts [optAlt loc4, optAlt [.n "CodeLang", .c]]).map fun rhs => ("CodeBody", rhs)) ++
    (codeLangStrings.map fun s => ("CodeLang", [GSym.t s])) ++
    (locTagStrings.map fun s => ("Loc", [GSym.t s])) ++
    ((seqAlts [[[GSym.t "<otsl>"]], optAlt loc4, optAlt [.n "TableBody"],
               optAlt [.t "<nl>", .n "Caption"], [[GSym.t "</otsl>"]]]).map
      fun rhs => ("TableItem", rhs)) ++
    [("TableBody", [.n "Row"]),
     ("TableBody", [.n "Row", .t "<nl>", .n "TableBody"]),
     ("Row", [.n "Cell"]),
     ("Row", [.n "Cell", .n "Row"])] ++
    (cellTagStrings.flatMap fun tok =>
      [("Cell", [GSym.t tok]), ("Cell", [GSym.t tok, GSym.c])]) ++
    ((seqAlts [[[GSym.t "<picture>"]], optAlt loc4, optAlt [.n "PicClass"],
               optAlt [.n "Smiles"], optAlt [.n "Caption"],
               [[GSym.t "</picture>"]]]).map fun rhs => ("PictureItem", rhs)) ++
    (picClassStrings.map fun s => ("PicClass", [GSym.t s])) ++
    [("Smiles", [.t "<smiles>", .c, .t "</smiles>"])] ++
    ((seqAlts [[[GSym.t "<caption>"]], optAlt loc4, optAlt [.c],
               [[GSym.t "</caption>"]]]).map fun rhs => ("Caption", rhs)) ++
    [("OrderedList", [.t "<ordered_list>", .n "ListItems", .t "</ordered_list>"]),
     ("UnorderedList", [.t "<unordered_list>", .n "ListItems", .t "</unordered_list>"]),
     ("ListItems", [.n "ListItem"]),
     ("ListItems", [.n "ListItem", .n "ListItems"]),
     ("ListItem", [.t "<list_item>", .n "ListItemBody", .t "</list_item>"]),
     ("ListItemBody", [.n "OrderedList"]),
     ("ListItemBody", [.n "UnorderedList"]),
     ("ListItemBody", [.n "TextBody"])]

/-! ## `validate_datetime` -/

/-- Python runtime values relevant to `validate_datetime`: a `datetime`
instance (flagged by whether its exact type is `datetime`, as tested by
`type(v) is datetime`, or a proper subclass), an exact `str`, or any
other value (numbers, `None`, instances of `str` subclasses, ...). -/
inductive PyVal where
  | dt (isExactType : Bool)
  | str (s : String)
  | other
  deriving DecidableEq, Repr

/-- `str.isnumeric()`, modelled over ASCII digits (Python's notion also
covers further Unicode numeric characters; the embedding's inputs are
ASCII). Nonempty and all characters numeric. -/
def pyIsNumeric (s : String) : Bool := !s.isEmpty && s.toList.all Char.isDigit

/-- The message of the `ValueError` raised by `validate_datetime`. -/
def dtErrMsg : String := "Value type must be a datetime or a non-numeric string"

/-- `validate_datetime(v, handler)`: pass `v` to the handler when `v` is
exactly a `datetime` or exactly a non-numeric `str`; otherwise raise
`ValueError` (modelled as `Except.error`) without invoking the handler. -/
def validate_datetime {α : Type} (v : PyVal) (handler : PyVal → α) : Except String α :=
  if (match v with
      | .dt isExact => isExact
      | .str s => !pyIsNumeric s
      | .other => false) then
    .ok (handler v)
  else
    .error dtErrMsg

/-! ## Connecting `validate_doctags` to derivability -/

/-- `validate_doctags` accepts exactly the inputs whose preprocessed form
is recognized from `start` with nothing left over, where recognition is
taken at any sufficient fuel (`parseF` is stable once decided). -/
theorem validate_doctags_spec (s : String) :
    validate_doctags s = true ↔
      ∃ f, parseF f (.nt .start) (preprocess s) = .ok [] := by
  obtain ⟨r, hr, hd⟩ := decidedAll (preprocess s).length (preprocess s) le_rfl (.nt .start)
  constructor
  · intro h
    rw [validate_doctags, hd _ le_rfl] at h
    cases r with
    | ok rest =>
      have hempty : rest = [] := by simpa using h
      exact ⟨fb (preprocess s).length (.nt .start), by rw [hd _ le_rfl, hempty]⟩
    | fail => simp at h
    | out => exact absurd rfl hr
  · rintro ⟨f, hf⟩
    have hne : parseF f (.nt .start) (preprocess s) ≠ .out := by rw [hf]; simp
    have hmax := parseF_mono f (max f (fb (preprocess s).length (.nt .start)))
      (.nt .start) (preprocess s) (le_max_left _ _) hne
    have h2 := hd (max f (fb (preprocess s).length (.nt .start))) (le_max_right _ _)
    have hrr : r = .ok [] := by rw [← h2, hmax, hf]
    rw [validate_doctags, hd _ le_rfl, hrr]
    rfl

/-! ## The claims -/

/-- C1: `validate_doctags(s)` returns true iff the entire token sequence
obtained from `s` (after whitespace stripping, tokenization and
re-concatenation, i.e. `preprocess`) is derivable from the start symbol
with no leftover input (recognition succeeds with empty remainder, at any
sufficient fuel); in particular, on the concrete input
`"<doctag><text></text></doctag><text></text>"` the strict prefix
`<doctag><text></text></doctag>` is derivable (recognition succeeds
leaving exactly the trailing tokens `<text></text>` unconsumed) and the
input is rejected. -/
theorem c1_full_consumption :
    (∀ s : String, validate_doctags s = true ↔
      ∃ f, parseF f (.nt .start) (preprocess s) = .ok []) ∧
    parseF 100000 (.nt .start)
      (preprocess "<doctag><text></text></doctag><text></text>") =
      .ok ("<text></text>".toList) ∧
    validate_doctags "<doctag><text></text></doctag><text></text>" = false :=
  ⟨validate_doctags_spec, by decide, by decide⟩

/-- C2: `validate_doctags` is total — it always produces a boolean; the
tokenizer never fails (every emitted token is a declared terminal or the
content placeholder, so every input tokenizes); and an input that is not
fully derivable from the start symbol yields `false` rather than an
error (`is_valid` catches every parse exception). -/
theorem c2_totality :
    ∀ s : String,
      (validate_doctags s = true ∨ validate_doctags s = false) ∧
      (∀ t ∈ tokenize (pyStrip s), t ∈ termList ∨ t = contentTok) ∧
      (validate_doctags s = false ∨
        ∃ f, parseF f (.nt .start) (preprocess s) = .ok []) := by
  intro s
  refine ⟨?_, ?_, ?_⟩
  · cases h : validate_doctags s
    · right; rfl
    · left; rfl
  · intro t ht
    exact tokenizeF_mem (pyStrip s).length (pyStrip s) t ht
  · cases h : validate_doctags s
    · left; rfl
    · right; exact (validate_doctags_spec s).mp h

/-- Witness for C2 at concrete inputs: the token `<doctag>` emitted when
tokenizing `"x<doctag>"` is a declared terminal or the placeholder, and
the empty string validates to `false` (not an error). -/
theorem c2_witness :
    ("<doctag>".toList ∈ termList ∨ "<doctag>".toList = contentTok) ∧
    (validate_doctags "" = true ∨ validate_doctags "" = false) :=
  ⟨(c2_totality "x<doctag>").2.1 ("<doctag>".toList) (by decide),
   (c2_totality "").1⟩

/-- C3: recognition terminates on every finite input: for every input
string there is a definite (non-out-of-fuel) result which the
recognizer reaches at the fuel bound `fb` and keeps at every larger
fuel — the fuel-indexed recursion never runs forever. (The code has no
explicit visited set; termination holds because every recursive cycle of
this grammar consumes at least one tag literal before re-entering, which
is what the proof of `decidedAll` formalizes.) -/
theorem c3_termination :
    ∀ s : String, ∃ r, r ≠ Res.out ∧
      ∀ g : Nat,
        parseF (fb (preprocess s).length (.nt .start) + g) (.nt .start)
          (preprocess s) = r := by
  intro s
  obtain ⟨r, hr, hd⟩ := decidedAll (preprocess s).length (preprocess s) le_rfl (.nt .start)
  exact ⟨r, hr, fun g => hd _ (Nat.le_add_right _ _)⟩

/-- C4: one content-placeholder token per maximal unmatched run: the
tokenizer's output refines to a segmentation (`GoodSegs`) in which every
`skipS` segment — the origin of exactly one content placeholder each — is
a nonempty run of positions at which no terminal matches, delimited by
the input's ends or matching positions (maximality); the segments tile
the whitespace-stripped input. Concretely, `"ab <doctag> cd ef"` becomes
placeholder, `<doctag>`, placeholder: one token for the entire run
`"cdef"`, not one per character and not one per word. -/
theorem c4_run_collapsing :
    (∀ s : String, GoodSegs (pyStrip s) (tokenizeSeg (pyStrip s)) ∧
      tokenize (pyStrip s) = (tokenizeSeg (pyStrip s)).map segTok) ∧
    tokenize (pyStrip "ab <doctag> cd ef") =
      [contentTok, "<doctag>".toList, contentTok] ∧
    (tokenizeSeg (pyStrip "ab <doctag> cd ef")).countP isSkipSeg = 2 :=
  ⟨fun s => ⟨tokenizeSegF_good (pyStrip s).length (pyStrip s) le_rfl,
    (tokenizeSegF_render (pyStrip s).length (pyStrip s)).symm⟩,
   by decide, by decide⟩

/-- C5: longest-match tokenization: whenever any terminal literal matches
at a position, `longestMatch` succeeds there with a matching terminal at
least as long as every other matching terminal; and every terminal the
tokenizer emits (every `termS` segment) is the `longestMatch` of its own
position — no terminal is ever emitted where a strictly longer one also
matches. -/
theorem c5_longest_match :
    (∀ u t' : List Char, t' ∈ termList → t'.isPrefixOf u = true →
      ∃ t, longestMatch u = some t ∧ t ∈ termList ∧ t.isPrefixOf u = true ∧
        t'.length ≤ t.length) ∧
    (∀ (u : List Char) (s1 : List Seg) (t : List Char) (s2 : List Seg),
      tokenizeSeg u = s1 ++ Seg.termS t :: s2 →
      longestMatch (((Seg.termS t :: s2).map segChars).flatten) = some t) := by
  constructor
  · intro u t' ht' hp
    have hsome := longestMatch_isSome ht' hp
    rcases hfind : longestMatch u with _ | t
    · rw [hfind] at hsome; simp at hsome
    · have hspec := longestMatch_spec hfind
      exact ⟨t, rfl, hspec.1, hspec.2, longestMatch_longest hfind t' ht' hp⟩
  · intro u s1 t s2 heq
    exact goodSegs_term_match (tokenizeSegF_good u.length u le_rfl) s1 t s2 heq

/-- Witness for C5 at concrete inputs: at the head of `"<text>x"` the
terminal `<text>` matches and the longest match is at least as long; the
single terminal segment of tokenizing `"<doctag>"` is its own longest
match. -/
theorem c5_witness :
    (∃ t, longestMatch ("<text>x".toList) = some t ∧ t ∈ termList ∧
      t.isPrefixOf ("<text>x".toList) = true ∧
      ("<text>".toList).length ≤ t.length) ∧
    longestMatch (((Seg.termS ("<doctag>".toList) :: ([] : List Seg)).map
        segChars).flatten) = some ("<doctag>".toList) :=
  ⟨c5_longest_match.1 ("<text>x".toList) ("<text>".toList) (by decide) (by decide),
   c5_longest_match.2 ("<doctag>".toList) [] ("<doctag>".toList) [] (by decide)⟩

/-- C6: whitespace invariance: removing (or, read backwards, inserting) a
whitespace character at any position leaves the whitespace-stripped
character sequence unchanged, and any two inputs with the same stripped
sequence get the same accept/reject result — all whitespace is removed
before scanning, so whitespace never changes the outcome. -/
theorem c6_whitespace_invariance :
    (∀ (pre post : List Char) (c : Char), pyIsSpace c = true →
      (pre ++ c :: post).filter (fun ch => !pyIsSpace ch) =
        (pre ++ post).filter (fun ch => !pyIsSpace ch)) ∧
    (∀ s s' : String, pyStrip s = pyStrip s' →
      validate_doctags s = validate_doctags s') := by
  constructor
  · intro pre post c hc
    simp [List.filter_append, List.filter_cons, hc]
  · intro s s' h
    have hp : preprocess s = preprocess s' := by rw [preprocess, preprocess, h]
    rw [validate_doctags, validate_doctags, hp]

/-- Witness for C6 at concrete inputs: inserting a space character and
scattering whitespace through a valid document changes nothing. -/
theorem c6_witness :
    (("<doctag>".toList ++ ' ' :: "</doctag>".toList).filter
        (fun ch => !pyIsSpace ch) =
      ("<doctag>".toList ++ "</doctag>".toList).filter (fun ch => !pyIsSpace ch)) ∧
    validate_doctags "<doctag> <text>\n</text>\t</doctag>" =
      validate_doctags "<doctag><text></text></doctag>" :=
  ⟨c6_whitespace_invariance.1 ("<doctag>".toList) ("</doctag>".toList) ' ' (by decide),
   c6_whitespace_invariance.2 _ _ (by decide)⟩

/-- C7: `validate_doctags "<doctag></doctag>"` is `false`: the body
between the document tags needs at least one page of at least one
document item, so the empty body is rejected. -/
theorem c7_empty_body_rejected : validate_doctags "<doctag></doctag>" = false := by
  decide

/-- C8: recursive list nesting is accepted: an unordered list whose list
item's body is itself an ordered list validates to `true`. -/
theorem c8_nested_lists_accepted :
    validate_doctags
      "<doctag><unordered_list><list_item><ordered_list><list_item>x</list_item></ordered_list></list_item></unordered_list></doctag>" =
      true := by
  decide

/-- The self-check succeeds exactly when the start symbol is declared and
every production symbol is declared. -/
theorem validate_grammar_iff (g : Grammar) :
    validate_grammar g = Except.ok () ↔
      (g.startSym ∈ g.nonterminals ∧
        ∀ p ∈ g.prods, ∀ sym ∈ p.2, symbolDeclared g sym = true) := by
  rw [validate_grammar]
  by_cases h1 : g.startSym ∈ g.nonterminals
  · rw [if_pos h1]
    by_cases h2 : g.prods.all (fun p => p.2.all (symbolDeclared g)) = true
    · rw [if_pos h2]
      constructor
      · intro _
        refine ⟨h1, fun p hp sym hsym => ?_⟩
        exact List.all_eq_true.mp (List.all_eq_true.mp h2 p hp) sym hsym
      · intro _; rfl
    · rw [if_neg h2]
      constructor
      · intro hcon; exact absurd hcon (by simp)
      · rintro ⟨-, hall⟩
        exact absurd (List.all_eq_true.mpr fun p hp =>
          List.all_eq_true.mpr (hall p hp)) h2
  · rw [if_neg h1]
    constructor
    · intro hcon; exact absurd hcon (by simp)
    · rintro ⟨hs, -⟩; exact absurd hs h1

/-- Membership in a string list gives a positive `contains` test. -/
theorem contains_of_mem : ∀ {l : List String} {s : String}, s ∈ l → l.contains s = true := by
  intro l s h
  induction l with
  | nil => simp at h
  | cons a l ih =>
    rw [List.contains_cons]
    rcases List.mem_cons.mp h with rfl | h2
    · rw [beq_self_eq_true, Bool.true_or]
    · rw [ih h2, Bool.or_true]

/-- Open tags of catalogued kinds are terminals. -/
theorem mem_terminal_open {name : String} (h : name ∈ pairedTagNames) :
    openTag name ∈ terminalStrings := by
  have hfm : openTag name ∈ pairedTagNames.flatMap (fun n => [openTag n, closeTag n]) :=
    List.mem_flatMap.mpr ⟨name, h, by simp⟩
  rw [terminalStrings, specialTokenStrings]
  simp only [List.mem_append]
  tauto

/-- Close tags of catalogued kinds are terminals. -/
theorem mem_terminal_close {name : String} (h : name ∈ pairedTagNames) :
    closeTag name ∈ terminalStrings := by
  have hfm : closeTag name ∈ pairedTagNames.flatMap (fun n => [openTag n, closeTag n]) :=
    List.mem_flatMap.mpr ⟨name, h, by simp⟩
  rw [terminalStrings, specialTokenStrings]
  simp only [List.mem_append]
  tauto

/-- Location tags are terminals. -/
theorem mem_terminal_loc {s : String} (h : s ∈ locTagStrings) : s ∈ terminalStrings := by
  rw [terminalStrings, specialTokenStrings]
  simp only [List.mem_append]
  tauto

/-- Table tokens are terminals. -/
theorem mem_terminal_table {s : String} (h : s ∈ tableTokStrings) : s ∈ terminalStrings := by
  rw [terminalStrings, specialTokenStrings]
  simp only [List.mem_append]
  tauto

/-- Code-language tokens are terminals. -/
theorem mem_terminal_codelang {s : String} (h : s ∈ codeLangStrings) :
    s ∈ terminalStrings := by
  rw [terminalStrings, specialTokenStrings]
  simp only [List.mem_append]
  tauto

/-- Picture-classification tokens are terminals. -/
theorem mem_terminal_picclass {s : String} (h : s ∈ picClassStrings) :
    s ∈ terminalStrings := by
  rw [terminalStrings, specialTokenStrings]
  simp only [List.mem_append]
  tauto

/-- Declared-terminal symbols pass the symbol check of the §4.4 grammar. -/
theorem declared_t {s : String} (h : s ∈ terminalStrings) :
    symbolDeclared docTagsGrammar (.t s) = true := contains_of_mem h

/-- Declared-non-terminal symbols pass the symbol check of the §4.4 grammar. -/
theorem declared_n {m : String} (h : m ∈ docTagsGrammar.nonterminals) :
    symbolDeclared docTagsGrammar (.n m) = true := contains_of_mem h

/-- If every symbol in every choice of every slot is declared, so is every
symbol of every expanded alternative. -/
theorem seqAlts_all {g : Grammar} : ∀ slots : List (List (List GSym)),
    (∀ choice ∈ slots, ∀ alt ∈ choice, ∀ sym ∈ alt, symbolDeclared g sym = true) →
    ∀ rhs ∈ seqAlts slots, ∀ sym ∈ rhs, symbolDeclared g sym = true := by
  intro slots
  induction slots with
  | nil =>
    intro _ rhs hrhs sym hsym
    rw [seqAlts] at hrhs
    simp at hrhs
    subst hrhs
    simp at hsym
  | cons choice rest ih =>
    intro h rhs hrhs sym hsym
    rw [seqAlts] at hrhs
    obtain ⟨pre, hpre, hrhs2⟩ := List.mem_flatMap.mp hrhs
    obtain ⟨suf, hsuf, rfl⟩ := List.mem_map.mp hrhs2
    rcases List.mem_append.mp hsym with h1 | h2
    · exact h choice (by simp) pre hpre sym h1
    · exact ih (fun c hc => h c (by simp [hc])) suf hsuf sym h2

/-- Every production symbol of the §4.4 grammar is declared. (`++` is
left-associative, so the production blocks are peeled from the last one
backwards.) -/
theorem docTags_prods_ok :
    ∀ p ∈ docTagsGrammar.prods, ∀ sym ∈ p.2,
      symbolDeclared docTagsGrammar sym = true := by
  intro p hp
  rcases (List.mem_append.mp hp).symm with hp | hp
  · -- the list productions
    fin_cases hp <;> intro sym hsym <;> fin_cases hsym <;> decide
  rcases (List.mem_append.mp hp).symm with hp | hp
  · -- Caption alternatives
    obtain ⟨rhs, hrhs, rfl⟩ := List.mem_map.mp hp
    exact fun sym hsym => seqAlts_all _ (by decide) rhs hrhs sym hsym
  rcases (List.mem_append.mp hp).symm with hp | hp
  · -- Smiles production
    fin_cases hp <;> intro sym hsym <;> fin_cases hsym <;> decide
  rcases (List.mem_append.mp hp).symm with hp | hp
  · -- PicClass productions
    obtain ⟨s, hs, rfl⟩ := List.mem_map.mp hp
    intro sym hsym
    rcases List.mem_cons.mp hsym with rfl | hsym
    · exact declared_t (mem_terminal_picclass hs)
    · simp at hsym
  rcases (List.mem_append.mp hp).symm with hp | hp
  · -- PictureItem alternatives
    obtain ⟨rhs, hrhs, rfl⟩ := List.mem_map.mp hp
    exact fun sym hsym => seqAlts_all _ (by decide) rhs hrhs sym hsym
  rcases (List.mem_append.mp hp).symm with hp | hp
  · -- Cell productions
    obtain ⟨tok, htok, hp2⟩ := List.mem_flatMap.mp hp
    have htab : tok ∈ tableTokStrings := (List.mem_filter.mp htok).1
    rcases List.mem_cons.mp hp2 with rfl | hp2
    · intro sym hsym
      rcases List.mem_cons.mp hsym with rfl | hsym
      · exact declared_t (mem_terminal_table htab)
      · simp at hsym
    rcases List.mem_cons.mp hp2 with rfl | hp2
    · intro sym hsym
      rcases List.mem_cons.mp hsym with rfl | hsym
      · exact declared_t (mem_terminal_table htab)
      rcases List.mem_cons.mp hsym with rfl | hsym
      · rfl
      · simp at hsym
    · simp at hp2
  rcases (List.mem_append.mp hp).symm with hp | hp
  · -- TableBody / Row literal productions
    fin_cases hp <;> intro sym hsym <;> fin_cases hsym <;> decide
  rcases (List.mem_append.mp hp).symm with hp | hp
  · -- TableItem alternatives
    obtain ⟨rhs, hrhs, rfl⟩ := List.mem_map.mp hp
    exact fun sym hsym => seqAlts_all _ (by decide) rhs hrhs sym hsym
  rcases (List.mem_append.mp hp).symm with hp | hp
  · -- Loc productions
    obtain ⟨s, hs, rfl⟩ := List.mem_map.mp hp
    intro sym hsym
    rcases List.mem_cons.mp hsym with rfl | hsym
    · exact declared_t (mem_terminal_loc hs)
    · simp at hsym
  rcases (List.mem_append.mp hp).symm with hp | hp
  · -- CodeLang productions
    obtain ⟨s, hs, rfl⟩ := List.mem_map.mp hp
    intro sym hsym
    rcases List.mem_cons.mp hsym with rfl | hsym
    · exact declared_t (mem_terminal_codelang hs)
    · simp at hsym
  rcases (List.mem_append.mp hp).symm with hp | hp
  · -- CodeBody alternatives
    obtain ⟨rhs, hrhs, rfl⟩ := List.mem_map.mp hp
    exact fun sym hsym => seqAlts_all _ (by decide) rhs hrhs sym hsym
  rcases (List.mem_append.mp hp).symm with hp | hp
  · -- TextBody alternatives
    obtain ⟨rhs, hrhs, rfl⟩ := List.mem_map.mp hp
    exact fun sym hsym => seqAlts_all _ (by decide) rhs hrhs sym hsym
  rcases (List.mem_append.mp hp).symm with hp | hp
  · -- TextItem code production
    fin_cases hp <;> intro sym hsym <;> fin_cases hsym <;> decide
  rcases (List.mem_append.mp hp).symm with hp | hp
  · -- TextItem productions for the section-header levels
    obtain ⟨i, hi, rfl⟩ := List.mem_map.mp hp
    have hpaired : sectionHeaderLabel i ∈ pairedTagNames := by
      rw [pairedTagNames]
      simp only [List.mem_append]
      exact Or.inl (Or.inr (List.mem_map.mpr ⟨i, hi, rfl⟩))
    intro sym hsym
    rcases List.mem_cons.mp hsym with rfl | hsym
    · exact declared_t (mem_terminal_open hpaired)
    rcases List.mem_cons.mp hsym with rfl | hsym
    · decide
    rcases List.mem_cons.mp hsym with rfl | hsym
    · exact declared_t (mem_terminal_close hpaired)
    · simp at hsym
  rcases (List.mem_append.mp hp).symm with hp | hp
  · -- TextItem productions over the text labels
    obtain ⟨lbl, hlbl, rfl⟩ := List.mem_map.mp hp
    have hpaired : lbl ∈ pairedTagNames := by
      rw [pairedTagNames]
      simp only [List.mem_append]
      tauto
    intro sym hsym
    rcases List.mem_cons.mp hsym with rfl | hsym
    · exact declared_t (mem_terminal_open hpaired)
    rcases List.mem_cons.mp hsym with rfl | hsym
    · decide
    rcases List.mem_cons.mp hsym with rfl | hsym
    · exact declared_t (mem_terminal_close hpaired)
    · simp at hsym
  · -- Document / Body / Page / DocItem literal productions
    fin_cases hp <;> intro sym hsym <;> fin_cases hsym <;> decide

/-- C9: the grammar self-check (modelled from the spec, which is the only
source for this component) succeeds exactly when the start symbol is a
declared non-terminal and every symbol on every production's right-hand
side is a declared non-terminal, a declared terminal, or the content
placeholder — so it fails exactly when one of those conditions is
violated; and the document-structure grammar of §4.4 passes the check.
It is a plain function of the grammar alone, independent of any document
input. -/
theorem c9_grammar_selfcheck :
    (∀ g : Grammar,
      validate_grammar g = Except.ok () ↔
        (g.startSym ∈ g.nonterminals ∧
          ∀ p ∈ g.prods, ∀ sym ∈ p.2, symbolDeclared g sym = true)) ∧
    validate_grammar docTagsGrammar = Except.ok () :=
  ⟨validate_grammar_iff,
   (validate_grammar_iff docTagsGrammar).mpr ⟨by decide, docTags_prods_ok⟩⟩

/-- Witness for C9 at a concrete grammar: a grammar whose start symbol is
not declared fails the self-check. -/
theorem c9_witness :
    validate_grammar
        { nonterminals := [], terminals := [], startSym := "Document",
          prods := [] } ≠ Except.ok () := by
  intro h
  have hc := (c9_grammar_selfcheck.1 _).mp h
  exact absurd hc.1 (by simp)

/-- C10: `validate_datetime(v, handler)` passes `v` to the handler
exactly when `v` is exactly a `datetime` (not a subclass) or exactly a
non-numeric `str`; every other value — numeric strings such as `"1234"`,
`datetime`-subclass instances, and anything else — yields the
`ValueError` message without the handler's result; the outcome is always
one of these two. -/
theorem c10_datetime_gate :
    (∀ (α : Type) (v : PyVal) (handler : PyVal → α),
      (validate_datetime v handler = .ok (handler v) ↔
        (v = .dt true ∨ ∃ s, v = .str s ∧ pyIsNumeric s = false)) ∧
      (validate_datetime v handler = .ok (handler v) ∨
        validate_datetime v handler = .error dtErrMsg)) ∧
    validate_datetime (PyVal.str "1234") (fun v => v) = .error dtErrMsg ∧
    validate_datetime (PyVal.dt false) (fun v => v) = .error dtErrMsg := by
  refine ⟨?_, by decide, by decide⟩
  intro α v handler
  cases v with
  | dt isEx =>
    cases isEx with
    | false =>
      refine ⟨⟨fun h => ?_, fun h => ?_⟩, Or.inr rfl⟩
      · exact absurd h (by simp [validate_datetime])
      · rcases h with h | ⟨s, h, -⟩ <;> simp at h
    | true => exact ⟨⟨fun _ => Or.inl rfl, fun _ => rfl⟩, Or.inl rfl⟩
  | str s =>
    by_cases hn : pyIsNumeric s = true
    · have herr : validate_datetime (.str s) handler = .error dtErrMsg := by
        rw [validate_datetime]
        simp [hn]
      refine ⟨⟨fun h => ?_, fun h => ?_⟩, Or.inr herr⟩
      · rw [herr] at h; exact absurd h (by simp)
      · rcases h with h | ⟨s', h, hnum⟩
        · simp at h
        · injection h with h
          subst h
          rw [hn] at hnum
          exact absurd hnum (by simp)
    · have hok : validate_datetime (.str s) handler = .ok (handler (.str s)) := by
        rw [validate_datetime]
        simp [Bool.not_eq_true] at hn
        simp [hn]
      refine ⟨⟨fun _ => Or.inr ⟨s, rfl, by simpa using hn⟩, fun _ => hok⟩, Or.inl hok⟩
  | other =>
    refine ⟨⟨fun h => ?_, fun h => ?_⟩, Or.inr rfl⟩
    · exact absurd h (by simp [validate_datetime])
    · rcases h with h | ⟨s, h, -⟩ <;> simp at h

/-- Witness for C10 at a concrete value: the exact-`datetime` value passes
its handler's result through. -/
theorem c10_witness :
    validate_datetime (PyVal.dt true) (fun v => v) = .ok (PyVal.dt true) ∨
    validate_datetime (PyVal.dt true) (fun v => v) =
      .error dtErrMsg :=
  ((c10_datetime_gate.1 PyVal (PyVal.dt true) (fun v => v)).2)
